import Mathlib

/-!
Verification of the MaidataStatistic chart-notation core.

The Python sources under src/effect are shallowly embedded here over
`List Char` strings:

* pattern.py  : check_song_structure, process_chart, split_blocks,
                extract_roots, _get_root, sliding_window, check_target_pattern
* delete.py   : process_beat, process_notes_part, process_line

Modelling conventions:

* Python `str` is `List Char`; `s.split(sep)` is `splitOn`, `sep.join`
  is `joinSep`, `s.strip()` is `pyStrip` (whitespace is Lean's
  `Char.isWhitespace`, which covers the characters occurring in chart data).
* `None` / `Optional[str]` is `Option (List Char)`.
* The regex `((?:\(\d+\.?\d*\)|\{\d+\})*)([^(){}]*)` driving
  `re.findall` in process_line is modelled by an explicit scanner
  (`matchParen?` / `matchBrace?` / the fuel loop `plGo`): at each
  position it matches header tokens one at a time, then a maximal run of
  non-bracket characters handed to `process_notes_part`; a position where
  the regex only admits a zero-width match (a stray bracket character)
  is skipped, exactly as `re.findall` advances past zero-width matches.
  Emitting the header tokens one by one produces the same output string
  as findall's maximal header groups, since headers are emitted verbatim.
* The regex `\{.*?\}|\(.*?\)` used with `re.sub` in extract_roots is
  modelled by `stripDecor`: non-greedy spans reach to the nearest closing
  bracket, and `.` does not cross a newline.
-/

namespace Maidata

/-- Python `s.split(c)`: `n` separator occurrences yield `n+1` parts,
parts may be empty, `"".split(c) = [""]`. -/
def splitOn (c : Char) : List Char → List (List Char)
  | [] => [[]]
  | x :: xs =>
    if x = c then [] :: splitOn c xs
    else
      match splitOn c xs with
      | [] => [[x]]
      | p :: ps => (x :: p) :: ps

/-- Python `sep.join(parts)` for a one-character separator. -/
def joinSep (c : Char) : List (List Char) → List Char
  | [] => []
  | [p] => p
  | p :: ps => p ++ c :: joinSep c ps

/-- Python `s.strip()`: drop leading and trailing whitespace. -/
def pyStrip (s : List Char) : List Char :=
  (((s.dropWhile Char.isWhitespace).reverse.dropWhile Char.isWhitespace).reverse)

/-- `_get_root` from pattern.py: root of a single note string.
`None` for the empty string; a two-character prefix for the reserved
A–E families when a second character exists; else the leading character. -/
def getRoot : List Char → Option (List Char)
  | [] => none
  | [c] => some [c]
  | c :: d :: _ =>
    if c = 'A' ∨ c = 'B' ∨ c = 'C' ∨ c = 'D' ∨ c = 'E' then some [c, d]
    else some [c]

/-- Index of the first occurrence of `close` in `s`, provided no newline
occurs strictly before it (regex `.` does not match a newline). -/
def findClose (close : Char) : List Char → Option Nat
  | [] => none
  | x :: xs =>
    if x = close then some 0
    else if x = '\n' then none
    else (findClose close xs).map (· + 1)

/-- Fuel-driven loop of `stripDecor`; fuel `s.length` always suffices
because every step consumes at least the head character. -/
def sdGo : Nat → List Char → List Char
  | _, [] => []
  | 0, _ :: _ => []
  | fuel + 1, x :: xs =>
    if x = '{' then
      match findClose '}' xs with
      | some i => sdGo fuel (xs.drop (i + 1))
      | none => x :: sdGo fuel xs
    else if x = '(' then
      match findClose ')' xs with
      | some i => sdGo fuel (xs.drop (i + 1))
      | none => x :: sdGo fuel xs
    else x :: sdGo fuel xs

/-- `re.sub(r'\{.*?\}|\(.*?\)', '', block)`: left-to-right scan deleting
each non-greedy bracketed span; an unmatched opening bracket stays. -/
def stripDecor (s : List Char) : List Char := sdGo s.length s

/-- `extract_roots` from pattern.py: strip bracket decorations, strip
whitespace, split on '/', classify, and keep the truthy results. -/
def extract_roots (block : List Char) : List (List Char) :=
  ((splitOn '/' (pyStrip (stripDecor block))).filterMap getRoot).filter
    (fun r => !r.isEmpty)

/-- `split_blocks` from pattern.py:
`[b.strip() for b in notes_str.split(',') if b.strip()]`. -/
def split_blocks (notes_str : List Char) : List (List Char) :=
  (splitOn ',' notes_str).filterMap
    (fun b => if (pyStrip b).isEmpty then none else some (pyStrip b))

/-- `process_chart` from pattern.py. -/
def process_chart (note_data : List (List Char)) : List (List (List Char)) :=
  ((split_blocks note_data.flatten).filter (fun b => !b.isEmpty)).map extract_roots

/-- A chart record as consumed by `check_song_structure` (dict keys
chart_number, level, description, note_data). -/
structure Chart where
  chart_number : Int
  level : List Char
  description : List Char
  note_data : List (List Char)

/-- `check_song_structure` from pattern.py. -/
def check_song_structure (song : List Chart)
    (condition_func : List (List (List Char)) → Bool) : List Int :=
  song.filterMap (fun chart =>
    if chart.note_data.isEmpty then none
    else if condition_func (process_chart chart.note_data) then
      some chart.chart_number
    else none)

/-- `sliding_window` from pattern.py: `range(len(seq) - size + 1)` windows
(`Nat` truncation matches Python's empty `range` on a negative bound). -/
def sliding_window (sequence : List α) (window_size : Nat) : List (List α) :=
  (List.range (sequence.length + 1 - window_size)).map
    (fun i => (sequence.drop i).take window_size)

/-- `check_target_pattern` from pattern.py. -/
def check_target_pattern (temporal_roots : List (List (List Char)))
    (target_pattern : List (List Char)) : Bool :=
  if temporal_roots.length < target_pattern.length then false
  else
    (sliding_window temporal_roots target_pattern.length).any (fun time_window =>
      (time_window.zip target_pattern).all (fun st =>
        st.1.any (fun note => decide (note = st.2))))

/-- The per-note decision inside `process_beat` from delete.py: the
processor is applied to `note.strip()` and the result is kept when it is
neither `None` nor the empty string. -/
def keepNote (note_processor : List Char → Option (List Char))
    (note : List Char) : Option (List Char) :=
  match note_processor (pyStrip note) with
  | none => none
  | some processed => if processed.isEmpty then none else some processed

/-- `process_beat` from delete.py. -/
def process_beat (beat : List Char)
    (note_processor : List Char → Option (List Char)) : List Char :=
  if (pyStrip beat).isEmpty then []
  else
    let kept_notes := (splitOn '/' beat).filterMap (keepNote note_processor)
    if kept_notes.isEmpty then [] else joinSep '/' kept_notes

/-- `process_notes_part` from delete.py. -/
def process_notes_part (notes_part : List Char)
    (note_processor : List Char → Option (List Char)) : List Char :=
  joinSep ',' ((splitOn ',' notes_part).map (fun b => process_beat b note_processor))

/-- One alternative of the regex header group: `\(\d+\.?\d*\)`.
Returns the matched token and the rest of the input.  Greedy `\d+`/`\d*`
with the trailing `)` admit no successful backtracking, so this
deterministic scan matches exactly when the regex does. -/
def matchParen? : List Char → Option (List Char × List Char)
  | [] => none
  | x :: rest =>
    if x = '(' then
      if (rest.takeWhile Char.isDigit).isEmpty then none
      else
        match rest.dropWhile Char.isDigit with
        | ')' :: r => some ('(' :: rest.takeWhile Char.isDigit ++ [')'], r)
        | '.' :: r2 =>
          match r2.dropWhile Char.isDigit with
          | ')' :: r => some ('(' :: rest.takeWhile Char.isDigit ++ '.' ::
              r2.takeWhile Char.isDigit ++ [')'], r)
          | _ => none
        | _ => none
    else none

/-- The other alternative of the regex header group: `\{\d+\}`. -/
def matchBrace? : List Char → Option (List Char × List Char)
  | [] => none
  | x :: rest =>
    if x = '{' then
      if (rest.takeWhile Char.isDigit).isEmpty then none
      else
        match rest.dropWhile Char.isDigit with
        | '}' :: r => some ('{' :: rest.takeWhile Char.isDigit ++ ['}'], r)
        | _ => none
    else none

/-- One header token `(\(\d+\.?\d*\)|\{\d+\})` at the head of the input. -/
def matchHeader? (s : List Char) : Option (List Char × List Char) :=
  match matchParen? s with
  | some tr => some tr
  | none => matchBrace? s

/-- A character outside the regex class `[(){}]`, i.e. part of a plain
(notes) run. -/
def isPlainChar (c : Char) : Bool :=
  !(c = '(' || c = ')' || c = '{' || c = '}')

/-- Fuel-driven scanner of `process_line` from delete.py, modelling
`re.findall(r'((?:\(\d+\.?\d*\)|\{\d+\})*)([^(){}]*)', line)` followed by
`''.join(head + process_notes_part(notes, f))`: header tokens are emitted
verbatim, each maximal bracket-free run is processed as a notes part, and
a character admitting only a zero-width match is skipped.  Fuel
`s.length + 1` always suffices: every step consumes at least one
character or ends the input. -/
def plGo (note_processor : List Char → Option (List Char)) :
    Nat → List Char → List Char
  | 0, _ => []
  | fuel + 1, s =>
    match matchHeader? s with
    | some (t, r) => t ++ plGo note_processor fuel r
    | none =>
      if (s.takeWhile isPlainChar).isEmpty then
        match s with
        | [] => []
        | _ :: tl => plGo note_processor fuel tl
      else
        process_notes_part (s.takeWhile isPlainChar) note_processor ++
          plGo note_processor fuel (s.drop (s.takeWhile isPlainChar).length)

/-- `process_line` from delete.py (the parameterized rewrite engine;
`process_line` in random_delete.py is the same logic with the processor
fixed to a probabilistic keep/delete). -/
def process_line (line : List Char)
    (note_processor : List Char → Option (List Char)) : List Char :=
  plGo note_processor (line.length + 1) line

/-- The identity note transform: every note is kept unchanged. -/
def idTransform : List Char → Option (List Char) := fun note => some note

/-! ### Helper lemmas about the string model -/

theorem splitOn_ne_nil (c : Char) (s : List Char) : splitOn c s ≠ [] := by
  induction s with
  | nil => simp [splitOn]
  | cons x xs ih =>
    simp only [splitOn]
    by_cases hx : x = c
    · simp [hx]
    · simp only [hx, if_false]
      cases h : splitOn c xs with
      | nil => simp
      | cons p ps => simp

theorem splitOn_cons_eq (c : Char) (xs : List Char) :
    splitOn c (c :: xs) = [] :: splitOn c xs := by
  simp [splitOn]

theorem splitOn_cons_ne (c x : Char) (xs p : List Char) (ps : List (List Char))
    (hx : x ≠ c) (h : splitOn c xs = p :: ps) :
    splitOn c (x :: xs) = (x :: p) :: ps := by
  simp only [splitOn, hx, if_false, h]

theorem not_mem_of_mem_splitOn (c : Char) (s b : List Char)
    (hb : b ∈ splitOn c s) : c ∉ b := by
  induction s generalizing b with
  | nil =>
    simp only [splitOn, List.mem_singleton] at hb
    simp [hb]
  | cons x xs ih =>
    by_cases hx : x = c
    · subst hx
      rw [splitOn_cons_eq, List.mem_cons] at hb
      cases hb with
      | inl hb => simp [hb]
      | inr hb => exact ih b hb
    · cases h : splitOn c xs with
      | nil => exact absurd h (splitOn_ne_nil c xs)
      | cons p ps =>
        rw [splitOn_cons_ne c x xs p ps hx h, List.mem_cons] at hb
        cases hb with
        | inl hb =>
          subst hb
          intro hc
          rw [List.mem_cons] at hc
          cases hc with
          | inl hc => exact hx hc.symm
          | inr hc => exact ih p (by rw [h]; exact List.mem_cons_self p ps) hc
        | inr hb => exact ih b (by rw [h]; exact List.mem_cons_of_mem p hb)

theorem joinSep_cons_cons (c : Char) (p q : List Char) (ps : List (List Char)) :
    joinSep c (p :: q :: ps) = p ++ c :: joinSep c (q :: ps) := rfl

theorem joinSep_splitOn (c : Char) (s : List Char) :
    joinSep c (splitOn c s) = s := by
  induction s with
  | nil => rfl
  | cons x xs ih =>
    by_cases hx : x = c
    · subst hx
      rw [splitOn_cons_eq]
      cases h : splitOn x xs with
      | nil => exact absurd h (splitOn_ne_nil x xs)
      | cons p ps =>
        rw [h] at ih
        rw [joinSep_cons_cons, List.nil_append, ih]
    · cases h : splitOn c xs with
      | nil => exact absurd h (splitOn_ne_nil c xs)
      | cons p ps =>
        rw [splitOn_cons_ne c x xs p ps hx h]
        rw [h] at ih
        cases ps with
        | nil =>
          simp only [joinSep] at ih ⊢
          rw [ih]
        | cons q qs =>
          rw [joinSep_cons_cons] at ih
          rw [joinSep_cons_cons, List.cons_append, ih]

theorem splitOn_eq_single (c : Char) (s : List Char) (h : c ∉ s) :
    splitOn c s = [s] := by
  induction s with
  | nil => rfl
  | cons x xs ih =>
    simp only [List.mem_cons, not_or] at h
    have hx : x ≠ c := fun hxc => h.1 hxc.symm
    rw [splitOn_cons_ne c x xs xs [] hx (ih h.2)]

theorem splitOn_append_cons (c : Char) (a b : List Char) (ha : c ∉ a) :
    splitOn c (a ++ c :: b) = a :: splitOn c b := by
  induction a with
  | nil => simpa using splitOn_cons_eq c b
  | cons x xs ih =>
    simp only [List.mem_cons, not_or] at ha
    have hx : x ≠ c := fun hxc => ha.1 hxc.symm
    cases h : splitOn c b with
    | nil => exact absurd h (splitOn_ne_nil c b)
    | cons p ps =>
      rw [h] at ih
      rw [List.cons_append, splitOn_cons_ne c x _ xs (p :: ps) hx (ih ha.2)]

theorem splitOn_joinSep (c : Char) (l : List (List Char)) (hl : l ≠ [])
    (h : ∀ x ∈ l, c ∉ x) : splitOn c (joinSep c l) = l := by
  induction l with
  | nil => exact absurd rfl hl
  | cons p ps ih =>
    cases ps with
    | nil => exact splitOn_eq_single c p (h p (List.mem_cons_self p []))
    | cons q qs =>
      rw [joinSep_cons_cons, splitOn_append_cons c p _
        (h p (List.mem_cons_self p _))]
      rw [ih (by simp) (fun x hx => h x (List.mem_cons_of_mem p hx))]

theorem takeWhile_append_all (p : Char → Bool) (a b : List Char)
    (h : ∀ x ∈ a, p x) : (a ++ b).takeWhile p = a ++ b.takeWhile p := by
  induction a with
  | nil => rfl
  | cons x xs ih =>
    have hx : p x := h x (List.mem_cons_self x xs)
    simp only [List.cons_append, List.takeWhile_cons, hx, if_true]
    rw [ih (fun y hy => h y (List.mem_cons_of_mem x hy))]

theorem dropWhile_append_all (p : Char → Bool) (a b : List Char)
    (h : ∀ x ∈ a, p x) : (a ++ b).dropWhile p = b.dropWhile p := by
  induction a with
  | nil => rfl
  | cons x xs ih =>
    have hx : p x := h x (List.mem_cons_self x xs)
    simp only [List.cons_append, List.dropWhile_cons, hx, if_true]
    exact ih (fun y hy => h y (List.mem_cons_of_mem x hy))

theorem dropWhile_head_false (p : Char → Bool) (x : Char) (xs : List Char)
    (h : (x :: xs).dropWhile p = x :: xs) : ¬ p x := by
  intro hx
  simp only [List.dropWhile_cons, hx, if_true] at h
  have hle := (List.dropWhile_sublist (l := xs) (p := p)).length_le
  have := congrArg List.length h
  simp only [List.length_cons] at this
  omega

/-! `pyStrip` facts.  `pyStrip` is definitionally
`rdropWhile isWhitespace after dropWhile isWhitespace`, which lets us reuse
the Mathlib lemmas about those. -/

theorem pyStrip_eq_rdrop (s : List Char) :
    pyStrip s = (s.dropWhile Char.isWhitespace).rdropWhile Char.isWhitespace :=
  rfl

theorem pyStrip_nil : pyStrip [] = [] := rfl

theorem mem_of_mem_pyStrip {c : Char} {s : List Char} (h : c ∈ pyStrip s) :
    c ∈ s := by
  rw [pyStrip_eq_rdrop] at h
  have h1 := (List.rdropWhile_prefix Char.isWhitespace
    (s.dropWhile Char.isWhitespace)).sublist.mem h
  exact (List.dropWhile_sublist (p := Char.isWhitespace)).mem h1

theorem pyStrip_eq_self_of (s : List Char)
    (h1 : s.dropWhile Char.isWhitespace = s)
    (h2 : s.rdropWhile Char.isWhitespace = s) :
    pyStrip s = s := by
  rw [pyStrip_eq_rdrop, h1, h2]

theorem pyStrip_eq_nil_of_all (s : List Char)
    (h : ∀ x ∈ s, x.isWhitespace) : pyStrip s = [] := by
  rw [pyStrip_eq_rdrop, List.dropWhile_eq_nil_iff.mpr h]
  rfl

theorem pyStrip_length_le (s : List Char) : (pyStrip s).length ≤ s.length := by
  rw [pyStrip_eq_rdrop]
  have h1 := (List.rdropWhile_prefix Char.isWhitespace
    (s.dropWhile Char.isWhitespace)).sublist.length_le
  have h2 := (List.dropWhile_sublist (l := s) (p := Char.isWhitespace)).length_le
  omega

theorem dropWhile_eq_self_of_pyStrip (s : List Char) (h : pyStrip s = s) :
    s.dropWhile Char.isWhitespace = s := by
  have hsub := List.dropWhile_sublist (l := s) (p := Char.isWhitespace)
  refine hsub.eq_of_length ?_
  have hlen := congrArg List.length h
  rw [pyStrip_eq_rdrop] at hlen
  have h1 := (List.rdropWhile_prefix Char.isWhitespace
    (s.dropWhile Char.isWhitespace)).sublist.length_le
  have h2 := hsub.length_le
  omega

theorem rdropWhile_eq_self_of_pyStrip (s : List Char) (h : pyStrip s = s) :
    s.rdropWhile Char.isWhitespace = s := by
  have hd := dropWhile_eq_self_of_pyStrip s h
  have hr := pyStrip_eq_rdrop s
  rw [hd] at hr
  rw [← hr, h]

theorem head_not_ws_of_pyStrip (x : Char) (xs : List Char)
    (h : pyStrip (x :: xs) = x :: xs) : ¬ x.isWhitespace := by
  exact dropWhile_head_false _ _ _ (dropWhile_eq_self_of_pyStrip _ h)

/-! ### C3: note classifier -/

/-- C3 counterexample: the claim says classification returns nothing for a
whitespace-only input, but `_get_root` only tests for the empty string:
on the whitespace-only string " " it returns the root " ", not `None`. -/
theorem C3_whitespace_counterexample :
    getRoot [' '] = some [' '] ∧ getRoot [' '] ≠ none ∧
      (' ').isWhitespace = true := by
  decide

/-- C3 (amended): `_get_root` is total and returns `none` exactly on the
empty string (not on whitespace-only strings); on a string with a first
character in the reserved family A–E and a second character it returns
the two-character prefix; on any other non-empty string — including a
whitespace-only one — it returns the single leading character. -/
theorem C3_getRoot_rule (s : List Char) :
    (s = [] → getRoot s = none) ∧
    (∀ c d t, s = c :: d :: t →
      ((c = 'A' ∨ c = 'B' ∨ c = 'C' ∨ c = 'D' ∨ c = 'E') →
          getRoot s = some [c, d]) ∧
      (¬(c = 'A' ∨ c = 'B' ∨ c = 'C' ∨ c = 'D' ∨ c = 'E') →
          getRoot s = some [c])) ∧
    (∀ c, s = [c] → getRoot s = some [c]) := by
  refine ⟨?_, ?_, ?_⟩
  · rintro rfl; rfl
  · rintro c d t rfl
    constructor
    · intro h
      show (if c = 'A' ∨ c = 'B' ∨ c = 'C' ∨ c = 'D' ∨ c = 'E' then
        some [c, d] else some [c]) = some [c, d]
      exact if_pos h
    · intro h
      show (if c = 'A' ∨ c = 'B' ∨ c = 'C' ∨ c = 'D' ∨ c = 'E' then
        some [c, d] else some [c]) = some [c]
      exact if_neg h
  · rintro c rfl; rfl

/-- C3 witness: the rule evaluated on the concrete reserved-family note
"A7". -/
theorem C3_getRoot_rule_witness : getRoot ['A', '7'] = some ['A', '7'] :=
  ((C3_getRoot_rule ['A', '7']).2.1 'A' '7' [] rfl).1 (by decide)

/-! ### C10: empty target pattern -/

/-- C10: an empty target pattern always matches, even against the empty
temporal-root sequence: `check_target_pattern` with a length-0 pattern
returns `true` for every sequence. -/
theorem C10_empty_pattern (S : List (List (List Char))) :
    check_target_pattern S [] = true := by
  unfold check_target_pattern sliding_window
  rw [if_neg (by simp)]
  apply List.any_eq_true.mpr
  refine ⟨(S.drop 0).take 0, List.mem_map.mpr ⟨0, List.mem_range.mpr (by simp), rfl⟩, ?_⟩
  simp

/-! ### C5: empty blocks contribute no TimeSlot -/

theorem filterMap_strip {α β : Type} (g : α → List Char) (f : List Char → β)
    (l : List α) :
    ((l.filterMap (fun a =>
        if (g a).isEmpty then none else some (g a))).filter
          (fun b => !b.isEmpty)).map f =
      l.filterMap (fun a =>
        if (g a).isEmpty then none else some (f (g a))) := by
  induction l with
  | nil => rfl
  | cons a l ih =>
    by_cases hb : (g a).isEmpty
    · simp only [List.filterMap_cons, if_pos hb, ih]
    · simp only [List.filterMap_cons, if_neg hb, List.filter_cons]
      rw [if_pos (by simpa using hb)]
      simp only [List.map_cons, ih]

/-- C5: building the temporal sequence concatenates the note-data lines,
splits the result on the comma delimiter, and keeps exactly the blocks
that are non-empty after trimming: a block that trims to the empty string
contributes no TimeSlot at all.  In particular a line consisting only of
commas contributes zero TimeSlots. -/
theorem C5_empty_block_skip (note_data : List (List Char)) :
    process_chart note_data =
      (splitOn ',' note_data.flatten).filterMap (fun b =>
        if (pyStrip b).isEmpty then none
        else some (extract_roots (pyStrip b))) ∧
    process_chart [[',', ',', ',']] = [] := by
  refine ⟨?_, by decide⟩
  unfold process_chart split_blocks
  exact filterMap_strip (fun b => pyStrip b) extract_roots
    (splitOn ',' note_data.flatten)

/-! ### C9: per-chart scan interface -/

theorem filterMap_guard {α β : Type} (p q : α → Bool) (f : α → β)
    (l : List α) :
    l.filterMap (fun a => if p a then none
        else if q a then some (f a) else none) =
      (l.filter (fun a => !p a && q a)).map f := by
  induction l with
  | nil => rfl
  | cons a l ih =>
    by_cases hp : p a
    · simp only [List.filterMap_cons, if_pos hp, List.filter_cons]
      rw [if_neg (by simp [hp]), ih]
    · by_cases hq : q a
      · simp only [List.filterMap_cons, if_neg hp, if_pos hq, List.filter_cons]
        rw [if_pos (by simp [hp, hq]), List.map_cons, ih]
      · simp only [List.filterMap_cons, if_neg hp, if_neg hq, List.filter_cons]
        rw [if_neg (by simp [hp, hq]), ih]

/-- C9: `check_song_structure` skips charts whose note-data list is empty
and returns, in collection order, exactly the chart numbers of the
remaining charts whose temporal-root sequence satisfies the predicate. -/
theorem C9_analysis_interface (song : List Chart)
    (condition_func : List (List (List Char)) → Bool) :
    check_song_structure song condition_func =
      (song.filter (fun chart =>
        !chart.note_data.isEmpty &&
          condition_func (process_chart chart.note_data))).map
        Chart.chart_number := by
  unfold check_song_structure
  exact filterMap_guard (fun chart => chart.note_data.isEmpty)
    (fun chart => condition_func (process_chart chart.note_data))
    (fun chart => chart.chart_number) song

theorem pyStrip_idem (s : List Char) : pyStrip (pyStrip s) = pyStrip s := by
  refine pyStrip_eq_self_of _ ?_ ?_
  · cases hp : pyStrip s with
    | nil => rfl
    | cons y t =>
      have hpre := List.rdropWhile_prefix Char.isWhitespace
        (s.dropWhile Char.isWhitespace)
      rw [← pyStrip_eq_rdrop, hp] at hpre
      obtain ⟨rest, hA⟩ := hpre
      have hAfix : (s.dropWhile Char.isWhitespace).dropWhile Char.isWhitespace
          = s.dropWhile Char.isWhitespace := List.dropWhile_idempotent _ _
      rw [← hA, List.cons_append] at hAfix
      have hy : ¬ y.isWhitespace := dropWhile_head_false _ _ _ hAfix
      simp [List.dropWhile_cons, hy]
  · rw [pyStrip_eq_rdrop s, List.rdropWhile_idempotent, ← pyStrip_eq_rdrop]

/-! ### C6: TimeSlot membership semantics -/

theorem sdGo_eq_self (fuel : Nat) (s : List Char) (hlen : s.length ≤ fuel)
    (h : ∀ c ∈ s, c ≠ '{' ∧ c ≠ '(') : sdGo fuel s = s := by
  induction fuel generalizing s with
  | zero =>
    cases s with
    | nil => rfl
    | cons x xs => simp at hlen
  | succ fuel ih =>
    cases s with
    | nil => rfl
    | cons x xs =>
      have hx := h x (List.mem_cons_self x xs)
      simp only [sdGo, if_neg hx.1, if_neg hx.2]
      rw [ih xs (by simp only [List.length_cons] at hlen; omega)
        (fun c hc => h c (List.mem_cons_of_mem x hc))]

theorem stripDecor_eq_self (s : List Char)
    (h : ∀ c ∈ s, c ≠ '{' ∧ c ≠ '(') : stripDecor s = s :=
  sdGo_eq_self s.length s le_rfl h

/-- C6: for retained blocks (which are whitespace-trimmed and carry no
bracket decorations left after stripping), a block containing a second
note with the same root identity yields a TimeSlot with exactly the same
membership as the block without that duplicate: the matcher consumes
membership, not multiplicity. -/
theorem C6_duplicate_root_membership (b b' n1 n2 : List Char)
    (ts us vs : List (List Char))
    (hb : pyStrip b = b) (hb' : pyStrip b' = b')
    (hnb : ∀ c ∈ b, c ≠ '{' ∧ c ≠ '(')
    (hnb' : ∀ c ∈ b', c ≠ '{' ∧ c ≠ '(')
    (hsplit : splitOn '/' b = ts ++ n1 :: (us ++ n2 :: vs))
    (hsplit' : splitOn '/' b' = ts ++ n1 :: (us ++ vs))
    (hroot : getRoot n2 = getRoot n1) :
    ∀ x, x ∈ extract_roots b ↔ x ∈ extract_roots b' := by
  intro x
  unfold extract_roots
  rw [stripDecor_eq_self b hnb, stripDecor_eq_self b' hnb', hb, hb',
    hsplit, hsplit']
  simp only [List.mem_filter, List.mem_filterMap, List.mem_append,
    List.mem_cons]
  constructor
  · rintro ⟨⟨a, ha, hax⟩, hne⟩
    refine ⟨?_, hne⟩
    rcases ha with ha | ha | ha | ha
    · exact ⟨a, Or.inl ha, hax⟩
    · exact ⟨a, Or.inr (Or.inl ha), hax⟩
    · exact ⟨a, Or.inr (Or.inr (Or.inl ha)), hax⟩
    · rcases ha with ha | ha
      · subst ha
        exact ⟨n1, Or.inr (Or.inl rfl), by rw [← hroot]; exact hax⟩
      · exact ⟨a, Or.inr (Or.inr (Or.inr ha)), hax⟩
  · rintro ⟨⟨a, ha, hax⟩, hne⟩
    refine ⟨?_, hne⟩
    rcases ha with ha | ha | ha | ha
    · exact ⟨a, Or.inl ha, hax⟩
    · exact ⟨a, Or.inr (Or.inl ha), hax⟩
    · exact ⟨a, Or.inr (Or.inr (Or.inl ha)), hax⟩
    · exact ⟨a, Or.inr (Or.inr (Or.inr (Or.inr ha))), hax⟩

/-- C6 witness: the block "1/1" (token list [1,1]) has the same root
membership as the block "1". -/
theorem C6_duplicate_root_membership_witness :
    ['1'] ∈ extract_roots ['1', '/', '1'] ↔ ['1'] ∈ extract_roots ['1'] :=
  C6_duplicate_root_membership ['1', '/', '1'] ['1'] ['1'] ['1'] [] [] []
    (by decide) (by decide) (by decide) (by decide) (by decide) (by decide)
    rfl ['1']

/-! ### C2: sliding-window matcher semantics -/

/-- C2: the matcher returns false whenever the sequence is shorter than
the pattern; otherwise it returns true exactly when some contiguous
window of pattern-length consecutive TimeSlots has the target identity
at every offset as a member of the slot at that offset. -/
theorem C2_window_semantics (S : List (List (List Char)))
    (P : List (List Char)) :
    (S.length < P.length → check_target_pattern S P = false) ∧
    (P.length ≤ S.length →
      (check_target_pattern S P = true ↔
        ∃ i, i + P.length ≤ S.length ∧
          ∀ j, j < P.length → P.getD j [] ∈ S.getD (i + j) [])) := by
  constructor
  · intro h
    unfold check_target_pattern
    rw [if_pos h]
  · intro hKS
    unfold check_target_pattern sliding_window
    rw [if_neg (by omega), List.any_eq_true]
    constructor
    · rintro ⟨w, hw, hall⟩
      rw [List.mem_map] at hw
      obtain ⟨i, hi, rfl⟩ := hw
      rw [List.mem_range] at hi
      have hik : i + P.length ≤ S.length := by omega
      refine ⟨i, hik, ?_⟩
      intro j hj
      rw [List.all_eq_true] at hall
      have hwl : ((S.drop i).take P.length).length = P.length := by
        simp only [List.length_take, List.length_drop]
        omega
      have hjw : j < ((S.drop i).take P.length).length := by omega
      have hzl : j < (((S.drop i).take P.length).zip P).length := by
        rw [List.length_zip]
        omega
      have hpair := hall ((((S.drop i).take P.length).zip P).get ⟨j, hzl⟩)
        (List.get_mem _ j hzl)
      have hgz : (((S.drop i).take P.length).zip P).get ⟨j, hzl⟩ =
          (((S.drop i).take P.length).get ⟨j, hjw⟩, P.get ⟨j, hj⟩) := by
        simp [List.get_eq_getElem, List.getElem_zip]
      rw [hgz] at hpair
      rw [List.any_eq_true] at hpair
      obtain ⟨note, hnote, hdec⟩ := hpair
      have hne : note = P.get ⟨j, hj⟩ := of_decide_eq_true hdec
      subst hne
      have hij : i + j < S.length := by omega
      have hget : ((S.drop i).take P.length).get ⟨j, hjw⟩ =
          S.get ⟨i + j, hij⟩ := by
        simp [List.get_eq_getElem, List.getElem_take, List.getElem_drop]
      rw [hget] at hnote
      rw [List.getD_eq_getElem?_getD, List.getElem?_eq_getElem hij,
        Option.getD_some, List.getD_eq_getElem?_getD,
        List.getElem?_eq_getElem hj, Option.getD_some]
      simpa [List.get_eq_getElem] using hnote
    · rintro ⟨i, hik, hmem⟩
      refine ⟨(S.drop i).take P.length,
        List.mem_map.mpr ⟨i, List.mem_range.mpr (by omega), rfl⟩, ?_⟩
      rw [List.all_eq_true]
      intro pair hpair
      rw [List.mem_iff_getElem] at hpair
      obtain ⟨j, hjz, hpe⟩ := hpair
      have hwl : ((S.drop i).take P.length).length = P.length := by
        simp only [List.length_take, List.length_drop]
        omega
      have hjP : j < P.length := by
        rw [List.length_zip, hwl] at hjz
        omega
      have hjw : j < ((S.drop i).take P.length).length := by omega
      have hij : i + j < S.length := by omega
      have hpe2 : pair =
          (((S.drop i).take P.length).get ⟨j, hjw⟩, P.get ⟨j, hjP⟩) := by
        rw [← hpe]
        simp [List.get_eq_getElem, List.getElem_zip]
      subst hpe2
      rw [List.any_eq_true]
      refine ⟨P.get ⟨j, hjP⟩, ?_, by simp⟩
      have hget : ((S.drop i).take P.length).get ⟨j, hjw⟩ =
          S.get ⟨i + j, hij⟩ := by
        simp [List.get_eq_getElem, List.getElem_take, List.getElem_drop]
      rw [hget]
      have hm := hmem j hjP
      rw [List.getD_eq_getElem?_getD, List.getElem?_eq_getElem hij,
        Option.getD_some, List.getD_eq_getElem?_getD,
        List.getElem?_eq_getElem hjP, Option.getD_some] at hm
      simpa [List.get_eq_getElem] using hm

/-- C2 witness: the window-tie-break data from the spec, matched through
the theorem at a concrete sequence of five TimeSlots and a four-identity
target pattern. -/
theorem C2_window_semantics_witness :
    check_target_pattern [[['2']], [['1']], [['8']], [['1']], [['8']]]
        [['1'], ['8'], ['1'], ['8']] = true ↔
      ∃ i, i + 4 ≤ 5 ∧ ∀ j, j < 4 →
        ([['1'], ['8'], ['1'], ['8']] : List (List Char)).getD j [] ∈
          ([[['2']], [['1']], [['8']], [['1']], [['8']]] :
            List (List (List Char))).getD (i + j) [] :=
  (C2_window_semantics [[['2']], [['1']], [['8']], [['1']], [['8']]]
    [['1'], ['8'], ['1'], ['8']]).2 (by decide)

/-! ### C4: beat reconstruction rule -/

/-- The beat reconstruction rule as the spec words it (§4.5): apply the
transform to every NoteToken (a trimmed slash-separated token), keep only
the results that are non-absent and non-empty, and re-join the survivors
with the note separator; with no survivors the result is the empty join.
Unlike `process_beat`, this rule consults the transform even when the
whole beat is empty or whitespace-only. -/
def specBeatRule (beat : List Char)
    (note_transform : List Char → Option (List Char)) : List Char :=
  joinSep '/' ((splitOn '/' beat).filterMap (fun n =>
    match note_transform (pyStrip n) with
    | none => none
    | some r => if r.isEmpty then none else some r))

/-- C4 counterexample: on the empty beat with a transform that maps every
note (including the empty note) to "X", `process_beat` short-circuits to
the empty string without applying the transform, while the claimed
reconstruction rule would keep the transformed note "X". -/
theorem C4_counterexample :
    process_beat [] (fun _ => some ['X']) = [] ∧
    specBeatRule [] (fun _ => some ['X']) = ['X'] ∧
    process_beat [] (fun _ => some ['X']) ≠
      specBeatRule [] (fun _ => some ['X']) := by
  decide

/-- C4 (amended): for a beat that is not empty or whitespace-only, the
reconstructed beat applies the transform to each slash-separated note's
trimmed text, keeps exactly the non-absent non-empty results, and
re-joins the survivors with the slash separator (empty when none
survive); a beat that trims to the empty string reconstructs to the
empty string without consulting the transform.  In both cases the beat
occupies its original comma-delimited position: `process_notes_part`
re-joins the per-beat reconstructions with commas in order. -/
theorem C4_beat_reconstruction (beat notes_part : List Char)
    (note_processor : List Char → Option (List Char)) :
    (¬ (pyStrip beat).isEmpty →
      process_beat beat note_processor = specBeatRule beat note_processor) ∧
    ((pyStrip beat).isEmpty → process_beat beat note_processor = []) ∧
    process_notes_part notes_part note_processor =
      joinSep ','
        ((splitOn ',' notes_part).map (fun b => process_beat b note_processor)) := by
  refine ⟨?_, ?_, rfl⟩
  · intro h
    unfold process_beat specBeatRule keepNote
    rw [if_neg h]
    by_cases hk : ((splitOn '/' beat).filterMap (fun n =>
        match note_processor (pyStrip n) with
        | none => none
        | some r => if r.isEmpty then none else some r)).isEmpty
    · rw [if_pos hk]
      rw [List.isEmpty_iff] at hk
      rw [hk]
      rfl
    · rw [if_neg hk]
  · intro h
    unfold process_beat
    rw [if_pos h]

/-- C4 witness: the amended rule evaluated on the concrete beat "1/8"
with the identity transform. -/
theorem C4_beat_reconstruction_witness :
    process_beat ['1', '/', '8'] idTransform =
      specBeatRule ['1', '/', '8'] idTransform :=
  (C4_beat_reconstruction ['1', '/', '8'] [] idTransform).1 (by decide)

/-! ### C8: deletion monotonicity -/

/-- The notes a beat contains: the trimmed slash-separated tokens that
are non-empty (an empty token is not a note; a beat of only empty tokens
is a rest). -/
def beatNotes (beat : List Char) : List (List Char) :=
  ((splitOn '/' beat).map pyStrip).filter (fun t => !t.isEmpty)

theorem mem_joinSep_of_mem (c : Char) (l : List (List Char)) (x : List Char)
    (ch : Char) (hx : x ∈ l) (hch : ch ∈ x) : ch ∈ joinSep c l := by
  induction l with
  | nil => cases hx
  | cons p ps ih =>
    cases ps with
    | nil =>
      rw [List.mem_singleton] at hx
      subst hx
      exact hch
    | cons q qs =>
      rw [joinSep_cons_cons, List.mem_append]
      rw [List.mem_cons] at hx
      rcases hx with hx | hx
      · subst hx
        exact Or.inl hch
      · exact Or.inr (List.mem_cons_of_mem c (ih hx))

theorem mem_of_mem_token (c : Char) (s tok : List Char) (ch : Char)
    (htok : tok ∈ splitOn c s) (hch : ch ∈ tok) : ch ∈ s := by
  rw [← joinSep_splitOn c s]
  exact mem_joinSep_of_mem c (splitOn c s) tok ch htok hch

theorem all_ws_of_pyStrip_eq_nil (s : List Char) (h : pyStrip s = [])
    (x : Char) (hx : x ∈ s) : x.isWhitespace := by
  rw [pyStrip_eq_rdrop] at h
  rw [List.rdropWhile_eq_nil_iff] at h
  cases hd : s.dropWhile Char.isWhitespace with
  | nil =>
    rw [List.dropWhile_eq_nil_iff] at hd
    exact hd x hx
  | cons y t =>
    exfalso
    have h0 : 0 < (s.dropWhile Char.isWhitespace).length := by
      rw [hd]; simp
    have hy := List.dropWhile_get_zero_not (p := Char.isWhitespace) s h0
    exact hy (h _ (List.get_mem _ 0 h0))

theorem filterMap_keepNote_only_delete
    (f : List Char → Option (List Char))
    (hf : ∀ s, f s = none ∨ f s = some s) (l : List (List Char)) :
    l.filterMap (keepNote f) =
      ((l.map pyStrip).filter (fun t => !t.isEmpty)).filter
        (fun n => (f n).isSome) := by
  induction l with
  | nil => rfl
  | cons n l ih =>
    simp only [List.filterMap_cons, List.map_cons, List.filter_cons]
    rcases hf (pyStrip n) with h | h
    · simp only [keepNote, h]
      by_cases he : (pyStrip n).isEmpty
      · rw [if_neg (by simpa using he), ih]
      · rw [if_pos (by simpa using he), List.filter_cons,
          if_neg (by simp [h]), ih]
    · simp only [keepNote, h]
      by_cases he : (pyStrip n).isEmpty
      · rw [if_pos he, if_neg (by simpa using he), ih]
      · rw [if_neg he, if_pos (by simpa using he), List.filter_cons,
          if_pos (by simp [h]), ih]

theorem beatNotes_process_beat (beat : List Char)
    (f : List Char → Option (List Char))
    (hf : ∀ s, f s = none ∨ f s = some s) :
    beatNotes (process_beat beat f) =
      (beatNotes beat).filter (fun n => (f n).isSome) := by
  unfold process_beat
  by_cases hs : (pyStrip beat).isEmpty
  · rw [if_pos hs]
    have hrhs : beatNotes beat = [] := by
      unfold beatNotes
      rw [List.filter_eq_nil_iff]
      intro t ht
      rw [List.mem_map] at ht
      obtain ⟨tok, htok, rfl⟩ := ht
      have : pyStrip tok = [] := by
        apply pyStrip_eq_nil_of_all
        intro ch hch
        exact all_ws_of_pyStrip_eq_nil beat (by simpa using hs) ch
          (mem_of_mem_token '/' beat tok ch htok hch)
      simp [this]
    rw [hrhs]
    rfl
  · rw [if_neg hs]
    rw [filterMap_keepNote_only_delete f hf (splitOn '/' beat)]
    by_cases hk : (((splitOn '/' beat).map pyStrip).filter
        (fun t => !t.isEmpty)).filter (fun n => (f n).isSome) |>.isEmpty
    · rw [if_pos hk]
      rw [List.isEmpty_iff] at hk
      unfold beatNotes
      rw [hk]
      rfl
    · rw [if_neg hk]
      rw [List.isEmpty_iff] at hk
      set kept := (((splitOn '/' beat).map pyStrip).filter
        (fun t => !t.isEmpty)).filter (fun n => (f n).isSome) with hkept
      unfold beatNotes
      have hmem : ∀ n ∈ kept, pyStrip n = n ∧ n ≠ [] ∧ '/' ∉ n := by
        intro n hn
        rw [hkept, List.mem_filter, List.mem_filter] at hn
        obtain ⟨⟨hn1, hn2⟩, -⟩ := hn
        rw [List.mem_map] at hn1
        obtain ⟨tok, htok, rfl⟩ := hn1
        refine ⟨pyStrip_idem tok, by simpa using hn2, ?_⟩
        intro hsl
        exact not_mem_of_mem_splitOn '/' beat tok htok
          (mem_of_mem_pyStrip hsl)
      rw [splitOn_joinSep '/' kept hk (fun x hx => (hmem x hx).2.2)]
      have hmap : kept.map pyStrip = kept :=
        List.map_congr_left (fun x hx => (hmem x hx).1) |>.trans (List.map_id _)
      rw [hmap]
      rw [List.filter_eq_self.mpr
        (fun x hx => by simpa using (hmem x hx).2.1)]

/-- C8: for a transform that only deletes (maps every string to itself or
to nothing), the reconstructed beat has at most as many notes as the
original beat, and strictly fewer exactly when the transform deletes at
least one of the beat's notes. -/
theorem C8_deletion_monotonicity (beat : List Char)
    (f : List Char → Option (List Char))
    (hf : ∀ s, f s = none ∨ f s = some s) :
    (beatNotes (process_beat beat f)).length ≤ (beatNotes beat).length ∧
    ((beatNotes (process_beat beat f)).length < (beatNotes beat).length ↔
      ∃ n ∈ beatNotes beat, f n = none) := by
  rw [beatNotes_process_beat beat f hf]
  refine ⟨List.length_filter_le _ _, ?_, ?_⟩
  · intro h
    by_contra hno
    push_neg at hno
    have hall : (beatNotes beat).filter (fun n => (f n).isSome) =
        beatNotes beat := by
      apply List.filter_eq_self.mpr
      intro n hn
      rcases hf n with h1 | h1
      · exact absurd h1 (hno n hn)
      · simp [h1]
    rw [hall] at h
    omega
  · rintro ⟨n, hn, hfn⟩
    apply List.length_filter_lt_length_iff_exists.mpr
    exact ⟨n, hn, by simp [hfn]⟩

/-- C8 witness: the beat "1/8" with the transform that deletes exactly
the note "8". -/
theorem C8_deletion_monotonicity_witness :
    (beatNotes (process_beat ['1', '/', '8']
        (fun s => if s = ['8'] then none else some s))).length ≤
      (beatNotes ['1', '/', '8']).length ∧
    ((beatNotes (process_beat ['1', '/', '8']
        (fun s => if s = ['8'] then none else some s))).length <
        (beatNotes ['1', '/', '8']).length ↔
      ∃ n ∈ beatNotes ['1', '/', '8'],
        (if n = ['8'] then none else some n) = none) :=
  C8_deletion_monotonicity ['1', '/', '8']
    (fun s => if s = ['8'] then none else some s)
    (fun s => by by_cases h : s = ['8'] <;> simp [h])

/-! ### C1/C7: header token grammar and well-formed note-data lines -/

/-- A textual header token of the first regex alternative
`\(\d+\.?\d*\)`: a parenthesized decimal number. -/
def IsParenTok (t : List Char) : Prop :=
  ∃ d1 d2 : List Char, d1 ≠ [] ∧ (∀ c ∈ d1, c.isDigit) ∧
    (∀ c ∈ d2, c.isDigit) ∧
    (t = '(' :: d1 ++ [')'] ∨ t = '(' :: d1 ++ '.' :: d2 ++ [')'])

/-- A textual header token of the second regex alternative `\{\d+\}`:
a braced integer. -/
def IsBraceTok (t : List Char) : Prop :=
  ∃ d1 : List Char, d1 ≠ [] ∧ (∀ c ∈ d1, c.isDigit) ∧ t = '{' :: d1 ++ ['}']

/-- A textual header token. -/
def IsHeaderTok (t : List Char) : Prop := IsParenTok t ∨ IsBraceTok t

theorem takeWhile_digits (d : List Char) (h1 : ∀ c ∈ d, c.isDigit)
    (x : Char) (hx : ¬ x.isDigit) (r : List Char) :
    ((d ++ x :: r).takeWhile Char.isDigit = d) ∧
    ((d ++ x :: r).dropWhile Char.isDigit = x :: r) := by
  constructor
  · rw [takeWhile_append_all Char.isDigit d (x :: r) h1]
    simp [List.takeWhile_cons, hx]
  · rw [dropWhile_append_all Char.isDigit d (x :: r) h1]
    simp [List.dropWhile_cons, hx]

theorem matchParen?_tok1 (d1 r : List Char) (hne : d1 ≠ [])
    (h1 : ∀ c ∈ d1, c.isDigit) :
    matchParen? ('(' :: (d1 ++ ')' :: r)) = some ('(' :: d1 ++ [')'], r) := by
  have ht := (takeWhile_digits d1 h1 ')' (by decide) r).1
  have hd := (takeWhile_digits d1 h1 ')' (by decide) r).2
  simp only [matchParen?, if_true]
  rw [ht, hd]
  rw [if_neg (by simpa using hne)]
  rfl

theorem matchParen?_tok2 (d1 d2 r : List Char) (hne : d1 ≠ [])
    (h1 : ∀ c ∈ d1, c.isDigit) (h2 : ∀ c ∈ d2, c.isDigit) :
    matchParen? ('(' :: (d1 ++ '.' :: (d2 ++ ')' :: r))) =
      some ('(' :: d1 ++ '.' :: d2 ++ [')'], r) := by
  have ht := (takeWhile_digits d1 h1 '.' (by decide) (d2 ++ ')' :: r)).1
  have hd := (takeWhile_digits d1 h1 '.' (by decide) (d2 ++ ')' :: r)).2
  have ht2 := (takeWhile_digits d2 h2 ')' (by decide) r).1
  have hd2 := (takeWhile_digits d2 h2 ')' (by decide) r).2
  simp only [matchParen?, if_true]
  rw [ht, hd]
  rw [if_neg (by simpa using hne)]
  simp only [ht2, hd2]

theorem matchParen?_head_ne (x : Char) (s : List Char) (hx : x ≠ '(') :
    matchParen? (x :: s) = none := by
  simp only [matchParen?]
  rw [if_neg hx]

theorem matchBrace?_tok (d1 r : List Char) (hne : d1 ≠ [])
    (h1 : ∀ c ∈ d1, c.isDigit) :
    matchBrace? ('{' :: (d1 ++ '}' :: r)) = some ('{' :: d1 ++ ['}'], r) := by
  have ht := (takeWhile_digits d1 h1 '}' (by decide) r).1
  have hd := (takeWhile_digits d1 h1 '}' (by decide) r).2
  simp only [matchBrace?, if_true]
  rw [ht, hd]
  rw [if_neg (by simpa using hne)]
  rfl

theorem matchBrace?_head_ne (x : Char) (s : List Char) (hx : x ≠ '{') :
    matchBrace? (x :: s) = none := by
  simp only [matchBrace?]
  rw [if_neg hx]

theorem matchHeader?_of_tok (t r : List Char) (h : IsHeaderTok t) :
    matchHeader? (t ++ r) = some (t, r) := by
  cases h with
  | inl hp =>
    obtain ⟨d1, d2, hne, h1, h2, hc | hc⟩ := hp
    · subst hc
      have he : ('(' :: d1 ++ [')']) ++ r = '(' :: (d1 ++ ')' :: r) := by simp
      rw [he]
      unfold matchHeader?
      rw [matchParen?_tok1 d1 r hne h1]
    · subst hc
      have he : ('(' :: d1 ++ '.' :: d2 ++ [')']) ++ r =
          '(' :: (d1 ++ '.' :: (d2 ++ ')' :: r)) := by simp
      rw [he]
      unfold matchHeader?
      rw [matchParen?_tok2 d1 d2 r hne h1 h2]
  | inr hb =>
    obtain ⟨d1, hne, h1, rfl⟩ := hb
    have he : ('{' :: d1 ++ ['}']) ++ r = '{' :: (d1 ++ '}' :: r) := by simp
    rw [he]
    unfold matchHeader?
    rw [matchParen?_head_ne '{' _ (by decide), matchBrace?_tok d1 r hne h1]

theorem matchHeader?_head_ne (x : Char) (s : List Char)
    (hx1 : x ≠ '(') (hx2 : x ≠ '{') : matchHeader? (x :: s) = none := by
  unfold matchHeader?
  rw [matchParen?_head_ne x s hx1, matchBrace?_head_ne x s hx2]

theorem IsHeaderTok_ne_nil (t : List Char) (h : IsHeaderTok t) : t ≠ [] := by
  cases h with
  | inl hp =>
    obtain ⟨d1, d2, -, -, -, hc | hc⟩ := hp <;> subst hc <;> simp
  | inr hb =>
    obtain ⟨d1, -, -, rfl⟩ := hb
    simp

/-- A well-formed beat text: either the empty beat (a rest), or a
whitespace-trimmed beat whose slash-separated note tokens are all
non-empty and themselves whitespace-trimmed. -/
def GoodBeat (b : List Char) : Prop :=
  b = [] ∨ (pyStrip b = b ∧ ∀ tok ∈ splitOn '/' b, tok ≠ [] ∧ pyStrip tok = tok)

/-- A well-formed plain (notes) run: no bracket characters, and every
comma-separated beat is well formed. -/
def GoodPlain (p : List Char) : Prop :=
  (∀ c ∈ p, isPlainChar c) ∧ ∀ b ∈ splitOn ',' p, GoodBeat b

instance (b : List Char) : Decidable (GoodBeat b) := by
  unfold GoodBeat
  exact inferInstance

instance (p : List Char) : Decidable (GoodPlain p) := by
  unfold GoodPlain
  exact inferInstance

/-- A well-formed note-data line, as the notation grammar describes it:
an alternation of valid header tokens and maximal well-formed plain
runs.  This captures the spec's note-data line format — every structural
bracket belongs to a header token, note tokens carry no surrounding
whitespace, and beats are either empty or hold non-empty notes. -/
inductive GoodLine : List Char → Prop where
  | nil : GoodLine []
  | header : ∀ t rest, IsHeaderTok t → GoodLine rest → GoodLine (t ++ rest)
  | plain : ∀ p rest, p ≠ [] → GoodPlain p →
      (rest = [] ∨ ∃ c r, rest = c :: r ∧ (c = '(' ∨ c = '{')) →
      GoodLine rest → GoodLine (p ++ rest)

theorem filterMap_eq_self_of {α : Type} (g : α → Option α) (l : List α)
    (h : ∀ x ∈ l, g x = some x) : l.filterMap g = l := by
  induction l with
  | nil => rfl
  | cons x xs ih =>
    rw [List.filterMap_cons, h x (List.mem_cons_self x xs),
      ih (fun y hy => h y (List.mem_cons_of_mem x hy))]

theorem process_beat_good (b : List Char)
    (f : List Char → Option (List Char)) (hf : ∀ s, f s = some s)
    (hg : GoodBeat b) : process_beat b f = b := by
  cases hg with
  | inl h => subst h; rfl
  | inr h =>
    obtain ⟨hsb, htoks⟩ := h
    have hbne : b ≠ [] := by
      intro hb
      subst hb
      exact (htoks [] (by simp [splitOn])).1 rfl
    unfold process_beat
    rw [if_neg (by rw [hsb]; simpa using hbne)]
    rw [filterMap_eq_self_of (keepNote f) (splitOn '/' b) (fun tok htok => by
      unfold keepNote
      rw [hf (pyStrip tok), (htoks tok htok).2]
      show (if tok.isEmpty = true then none else some tok) = some tok
      rw [if_neg (by simpa using (htoks tok htok).1)])]
    rw [if_neg (by simpa using splitOn_ne_nil '/' b)]
    exact joinSep_splitOn '/' b

theorem process_notes_part_good (p : List Char)
    (f : List Char → Option (List Char)) (hf : ∀ s, f s = some s)
    (hbeats : ∀ b ∈ splitOn ',' p, GoodBeat b) :
    process_notes_part p f = p := by
  unfold process_notes_part
  have hmap : (splitOn ',' p).map (fun b => process_beat b f) =
      (splitOn ',' p).map id :=
    List.map_congr_left (fun b hb => process_beat_good b f hf (hbeats b hb))
  rw [hmap, List.map_id]
  exact joinSep_splitOn ',' p

theorem plGo_nil (f : List Char → Option (List Char)) (fuel : Nat) :
    plGo f fuel [] = [] := by
  cases fuel <;> rfl

theorem plGo_roundtrip (f : List Char → Option (List Char))
    (hf : ∀ s, f s = some s) (fuel : Nat) :
    ∀ L, GoodLine L → L.length < fuel → plGo f fuel L = L := by
  induction fuel with
  | zero =>
    intro L _ h
    omega
  | succ fuel ih =>
    intro L hg hlen
    cases hg with
    | nil => rfl
    | header t rest htok hrest =>
      have htne : 1 ≤ t.length :=
        List.length_pos.mpr (IsHeaderTok_ne_nil t htok)
      rw [List.length_append] at hlen
      simp only [plGo, matchHeader?_of_tok t rest htok]
      rw [ih rest hrest (by omega)]
    | plain p rest hpne hplain hnext hrest =>
      obtain ⟨hpc, hbeats⟩ := hplain
      obtain ⟨x, xs, rfl⟩ : ∃ x xs, p = x :: xs := by
        cases p with
        | nil => exact absurd rfl hpne
        | cons x xs => exact ⟨x, xs, rfl⟩
      have hx := hpc x (List.mem_cons_self x xs)
      have hmh : matchHeader? ((x :: xs) ++ rest) = none := by
        rw [List.cons_append]
        refine matchHeader?_head_ne x (xs ++ rest) ?_ ?_
        · intro hh
          subst hh
          simp [isPlainChar] at hx
        · intro hh
          subst hh
          simp [isPlainChar] at hx
      have htw : ((x :: xs) ++ rest).takeWhile isPlainChar = x :: xs := by
        rw [takeWhile_append_all isPlainChar (x :: xs) rest hpc]
        rcases hnext with h | ⟨c, r, rfl, hc⟩
        · subst h
          simp
        · simp only [List.takeWhile_cons]
          rw [if_neg (by rcases hc with rfl | rfl <;> simp [isPlainChar])]
          simp
      simp only [plGo, hmh, htw]
      rw [if_neg (by simp)]
      rw [List.drop_left (x :: xs) rest]
      rw [process_notes_part_good (x :: xs) f hf hbeats]
      rw [ih rest hrest
        (by simp only [List.length_append, List.length_cons] at hlen; omega)]

/-! ### C1: round-trip identity of the rewrite engine -/

/-- C1: for every well-formed note-data line and every transform that
keeps each note unchanged, `process_line` reproduces the line exactly —
header tokens, delimiter placement and empty beats included. -/
theorem C1_roundtrip_identity (L : List Char)
    (f : List Char → Option (List Char)) (hf : ∀ s, f s = some s)
    (hL : GoodLine L) : process_line L f = L :=
  plGo_roundtrip f hf (L.length + 1) L hL (by omega)

/-- C1 witness: the identity round trip on a concrete note-data line
with two header tokens, a multi-note beat, and empty beats. -/
theorem C1_roundtrip_identity_witness :
    process_line "(173){1}1,2/8,,".toList idTransform =
      "(173){1}1,2/8,,".toList := by
  apply C1_roundtrip_identity _ idTransform (fun s => rfl)
  have h1 : IsHeaderTok "(173)".toList :=
    Or.inl ⟨['1', '7', '3'], [], by decide, by decide, by decide,
      Or.inl (by decide)⟩
  have h2 : IsHeaderTok "{1}".toList :=
    Or.inr ⟨['1'], by decide, by decide, by decide⟩
  have hp : GoodPlain "1,2/8,,".toList := ⟨by decide, by decide⟩
  have g3 : GoodLine ("1,2/8,,".toList ++ []) :=
    GoodLine.plain _ [] (by decide) hp (Or.inl rfl) GoodLine.nil
  rw [List.append_nil] at g3
  have g2 : GoodLine ("{1}".toList ++ "1,2/8,,".toList) :=
    GoodLine.header _ _ h2 g3
  have g1 : GoodLine ("(173)".toList ++ ("{1}".toList ++ "1,2/8,,".toList)) :=
    GoodLine.header _ _ h1 g2
  exact g1

/-! ### C7: tokenizer degradation -/

/-- C7 counterexample: the claim says a construct that does not match the
header patterns falls through as plain-run text rather than being
altered or dropped, but on the line "{a}" the rewrite (with the identity
transform) drops the two brace characters: only "a" survives. -/
theorem C7_counterexample :
    process_line ['{', 'a', '}'] idTransform = ['a'] ∧
    process_line ['{', 'a', '}'] idTransform ≠ ['{', 'a', '}'] := by
  decide

theorem process_line_plain (f : List Char → Option (List Char))
    (s : List Char) (h : ∀ c ∈ s, isPlainChar c) :
    process_line s f = process_notes_part s f := by
  cases s with
  | nil => rfl
  | cons x xs =>
    have hx := h x (List.mem_cons_self x xs)
    unfold process_line
    rw [plGo]
    rw [matchHeader?_head_ne x xs
      (by intro hh; subst hh; simp [isPlainChar] at hx)
      (by intro hh; subst hh; simp [isPlainChar] at hx)]
    rw [List.takeWhile_eq_self_iff.mpr h]
    rw [if_neg (by simp)]
    rw [List.drop_length, plGo_nil, List.append_nil]

/-- C7 (amended): the rewrite of a line is total (the embedding is a
total function, so it never raises); a blank or whitespace-only line
yields the empty result; and a line containing no bracket characters
falls through in its entirety as plain-run text — it is handed to the
notes processing unaltered.  (Bracket characters that do not form a
valid header token are dropped, per the counterexample.) -/
theorem C7_degradation (f : List Char → Option (List Char))
    (s : List Char) :
    ((∀ c ∈ s, c.isWhitespace) → process_line s f = []) ∧
    ((∀ c ∈ s, isPlainChar c) → process_line s f = process_notes_part s f) := by
  refine ⟨?_, process_line_plain f s⟩
  intro hws
  have hpl : ∀ c ∈ s, isPlainChar c := by
    intro c hc
    have hw := hws c hc
    have hchar : ((c = ' ' ∨ c = '\t') ∨ c = '\r') ∨ c = '\n' := by
      simpa [Char.isWhitespace] using hw
    rcases hchar with ((rfl | rfl) | rfl) | rfl <;> decide
  rw [process_line_plain f s hpl]
  have hnc : ',' ∉ s := by
    intro hmem
    exact absurd (hws ',' hmem) (by decide)
  unfold process_notes_part
  rw [splitOn_eq_single ',' s hnc]
  have hb : process_beat s f = [] := by
    unfold process_beat
    rw [if_pos (by rw [pyStrip_eq_nil_of_all s hws]; rfl)]
  rw [List.map_cons, List.map_nil, hb]
  rfl

/-- C7 witness: the whitespace-only line " " rewrites to the empty
line. -/
theorem C7_degradation_witness : process_line [' '] idTransform = [] :=
  (C7_degradation idTransform [' ']).1 (by decide)

end Maidata

section Scratch
open Maidata

example : splitOn ',' "a,b,".toList = ["a".toList, "b".toList, []] := by decide
example : joinSep ',' [['a'], ['b'], []] = "a,b,".toList := by decide
example : pyStrip "  a b ".toList = "a b".toList := by decide
example : getRoot "A7x".toList = some "A7".toList := by decide
example : getRoot " ".toList = some [' '] := by decide
example : stripDecor "{4}1,2(x)3".toList = "1,23".toList := by decide
example : extract_roots "1b/2h".toList = [['1'], ['2']] := by decide
example : split_blocks "{4}1, ,,2,".toList = ["{4}1".toList, ['2']] := by decide
example : process_chart ["{4}1,,".toList, "2/8,".toList] =
    [[['1']], [['2'], ['8']]] := by decide
example : check_target_pattern [[['1']], [['8']], [['1']]] [['8'], ['1']] = true := by
  decide
example : check_target_pattern [[['1']], [['8']]] [['8'], ['1'], ['8']] = false := by
  decide
example : check_target_pattern [] [] = true := by decide

example : process_beat "1/8".toList idTransform = "1/8".toList := by decide
example : process_beat " ".toList (fun _ => some ['X']) = [] := by decide
example : process_beat "1/8".toList
    (fun n => if n = ['8'] then none else some n) = ['1'] := by decide
example : process_notes_part "1,,2/8".toList idTransform = "1,,2/8".toList := by
  decide
example : matchHeader? "(173){1}x".toList = some ("(173)".toList, "{1}x".toList) := by
  decide
example : matchHeader? "(1.5)x".toList = some ("(1.5)".toList, ['x']) := by decide
example : matchHeader? "(1.2.3)x".toList = none := by decide
example : process_line "(173){1}1,2/8,,".toList idTransform =
    "(173){1}1,2/8,,".toList := by decide
example : process_line "{a}".toList idTransform = ['a'] := by decide
example : process_line "(a)".toList idTransform = ['a'] := by decide
example : process_line "".toList idTransform = [] := by decide
example : process_line "  ".toList (fun _ => some ['X']) = [] := by decide
example : process_line "(1)(2)".toList idTransform = "(1)(2)".toList := by decide

end Scratch
